import Mathlib

/-
Verification of the reminder-extraction engine of `src/components/smart-reminders.tsx`.

The component is a React client component; the parts relevant to the claims are the
pure helper functions closed over by `SmartReminders`:

  * `extractRemindersFromNotes`  (regex-based candidate extraction, dedup, sort)
  * `similarity`, `levenshteinDistance`
  * `determinePriority`, `categorizeReminder`, `extractTimeHint`
  * the `useEffect` merge of carried-over completion state (keyed by `noteId + text`)
  * `completeReminder`, `dismissReminder`

Modelling conventions:
  * JavaScript strings are modelled as Lean `String` / `List Char`; all texts involved
    in the claims are ASCII, where JS UTF-16 code-unit semantics coincide with
    per-character semantics.
  * The JS regular expressions appearing in `reminderPatterns` use only literals
    (with the `i` flag), alternation, non-capturing groups, one capturing group,
    the classes `.` and `\s`, the quantifiers `+`, `+?`, `*?`, `(?:...)?` and the
    anchor `$` (no `m` flag, so `$` is end of input).  A small backtracking matcher
    with exactly the JS strategy (leftmost position, alternatives left to right,
    greedy tries longer first, lazy tries shorter first) is defined below and the
    seven patterns are transliterated into its syntax tree.
  * `id: note.id + "-" + Date.now() + "-" + Math.random()` is nondeterministic;
    the wall-clock/random suffix of the k-th generated reminder is modelled by an
    explicit parameter `clk : Nat -> String`.
  * `(longer.length - editDistance) / longer.length` is JS floating point; it is
    modelled in `Rat`.  For the operands that occur (small integers divided by the
    max string length) the double rounding error is far below the distance to the
    threshold 0.7, so every comparison `similarity > 0.7` performed by the program
    agrees with the exact rational comparison.  For two empty strings JS computes
    0/0 = NaN; Lean division by zero gives 0.  Both fail every `> 0.7` test the
    program performs, so the embedding is observationally faithful there as well.
-/

/-! ### JS character classes and small string helpers -/

/-- Line terminators excluded by the JS regex class `.` (no `s` flag):
LF, CR, U+2028, U+2029. -/
def isLineTerm (c : Char) : Bool :=
  c.toNat = 10 || c.toNat = 13 || c.toNat = 0x2028 || c.toNat = 0x2029

/-- The JS regex class `\s` (also the set trimmed by `String.prototype.trim`):
tab, LF, VT, FF, CR, space, NBSP, and the Unicode space separators. -/
def isJsWhitespace (c : Char) : Bool :=
  c.toNat = 9 || c.toNat = 10 || c.toNat = 11 || c.toNat = 12 || c.toNat = 13 ||
  c.toNat = 32 || c.toNat = 0xA0 || c.toNat = 0x1680 ||
  (0x2000 ≤ c.toNat && c.toNat ≤ 0x200A) ||
  c.toNat = 0x2028 || c.toNat = 0x2029 || c.toNat = 0x202F || c.toNat = 0x205F ||
  c.toNat = 0x3000 || c.toNat = 0xFEFF

/-- JS `String.prototype.trim`. -/
def jsTrim (s : List Char) : List Char :=
  ((s.dropWhile isJsWhitespace).reverse.dropWhile isJsWhitespace).reverse

/-- Substring test on character lists; `containsSub hay needle` is JS
`hay.includes(needle)`. -/
def containsSub (hay needle : List Char) : Bool :=
  needle.isPrefixOf hay ||
    match hay with
    | [] => false
    | _ :: rest => containsSub rest needle

/-- JS `s.includes(w)` on strings. -/
def strIncludes (s w : String) : Bool := containsSub s.data w.data

/-- JS `String.prototype.toLowerCase` (ASCII scope). -/
def toLowerStr (s : String) : String := String.mk (s.data.map Char.toLower)

/-! ### A backtracking regex matcher with the JS strategy

The seven patterns of `reminderPatterns` need: literals (case-insensitive via the
`i` flag), alternation, concatenation, a greedy optional group `(?:...)?`, the
quantifiers `\s+` (greedy), `.+?` and `.*?` (lazy, on a single-character class),
the anchor `$` and one capturing group.  The matcher is written in
continuation-passing style; trying alternatives in order until the continuation
succeeds is exactly the backtracking strategy of the JS engine, so the first
produced result coincides with the JS match. -/

/-- The two character classes appearing in the patterns: `.` and `\s`. -/
inductive CClass where
  | anyNN
  | wsp
deriving DecidableEq

/-- Membership test of a character class. -/
def CClass.test : CClass → Char → Bool
  | .anyNN, c => !isLineTerm c
  | .wsp, c => isJsWhitespace c

/-- Syntax of the regex fragment used by `reminderPatterns`. -/
inductive RE where
  | eps
  | lit (c : Char)
  | alt (r1 r2 : RE)
  | cat (r1 r2 : RE)
  | opt (r : RE)
  | plusGreedy (cc : CClass)
  | plusLazy (cc : CClass)
  | starLazy (cc : CClass)
  | eos
  | grp (r : RE)

/-- Result of a match attempt: remaining input and the group-1 capture. -/
abbrev MRes := Option (List Char × Option (List Char))

/-- Greedy Kleene star over a character class: consume as much as possible first,
backtracking one character at a time when the continuation fails. -/
def greedyStarK (p : Char → Bool) : List Char → Option (List Char) →
    (List Char → Option (List Char) → MRes) → MRes
  | [], cap, k => k [] cap
  | c :: rest, cap, k =>
      (if p c then greedyStarK p rest cap k else none) <|> k (c :: rest) cap

/-- Lazy Kleene star over a character class: try the continuation first, consume
one more character only when it fails. -/
def lazyStarK (p : Char → Bool) : List Char → Option (List Char) →
    (List Char → Option (List Char) → MRes) → MRes
  | [], cap, k => k [] cap
  | c :: rest, cap, k =>
      k (c :: rest) cap <|> (if p c then lazyStarK p rest cap k else none)

/-- Case-insensitive literal comparison (the `i` flag; ASCII scope). -/
def litMatches (pat c : Char) : Bool := pat.toLower == c.toLower

/-- The CPS matcher.  `reMatch re s cap k` attempts to match `re` at the front of
`s` with current group-1 capture `cap`, invoking `k` with the rest of the input
and capture on success; alternatives are tried in the JS order. -/
def reMatch : RE → List Char → Option (List Char) →
    (List Char → Option (List Char) → MRes) → MRes
  | .eps, s, cap, k => k s cap
  | .lit c, s, cap, k =>
      match s with
      | [] => none
      | x :: rest => if litMatches c x then k rest cap else none
  | .alt r1 r2, s, cap, k => reMatch r1 s cap k <|> reMatch r2 s cap k
  | .cat r1 r2, s, cap, k => reMatch r1 s cap (fun s2 cap2 => reMatch r2 s2 cap2 k)
  | .opt r, s, cap, k => reMatch r s cap k <|> k s cap
  | .plusGreedy cc, s, cap, k =>
      match s with
      | [] => none
      | x :: rest => if cc.test x then greedyStarK cc.test rest cap k else none
  | .plusLazy cc, s, cap, k =>
      match s with
      | [] => none
      | x :: rest => if cc.test x then lazyStarK cc.test rest cap k else none
  | .starLazy cc, s, cap, k => lazyStarK cc.test s cap k
  | .eos, s, cap, k =>
      match s with
      | [] => k [] cap
      | _ :: _ => none
  | .grp r, s, cap, k =>
      reMatch r s cap (fun s2 _ => k s2 (some (s.take (s.length - s2.length))))

/-- Attempt a match anchored at the start of `s`; returns the length of the
matched text and the group-1 capture. -/
def matchAt (re : RE) (s : List Char) : Option (ℕ × Option (List Char)) :=
  (reMatch re s none (fun rem cap => some (rem, cap))).map
    (fun rc => (s.length - rc.1.length, rc.2))

/-- One regex match: start index, matched text (`match[0]`) and group 1. -/
structure MatchData where
  mIdx : ℕ
  mStr : List Char
  mGrp : Option (List Char)
deriving DecidableEq

/-- Find the leftmost match starting at or after `start`; this is what
`RegExp.prototype.exec` does with `lastIndex = start`. -/
def findFrom (re : RE) (text : List Char) (start : ℕ) : Option MatchData :=
  (List.range (text.length + 1 - start)).findSome? (fun off =>
    (matchAt re (text.drop (start + off))).map (fun lc =>
      ⟨start + off, (text.drop (start + off)).take lc.1, lc.2⟩))

/-- The `while ((match = pattern.exec(text)) !== null)` loop of the source, which
advances `lastIndex` past each match.  Every pattern in `reminderPatterns`
matches at least one character, so at most `text.length + 1` iterations can
occur; the fuel makes that bound explicit. -/
def execAllAux (re : RE) (text : List Char) : ℕ → ℕ → List MatchData
  | 0, _ => []
  | fuel + 1, pos =>
      match findFrom re text pos with
      | none => []
      | some md => md :: execAllAux re text fuel (md.mIdx + md.mStr.length)

/-- All matches of a global (`g`-flag) pattern, in order. -/
def execAll (re : RE) (text : List Char) : List MatchData :=
  execAllAux re text (text.length + 1) 0

/-! ### The seven extraction patterns -/

/-- A literal word as a regex. -/
def reStr (s : String) : RE := s.data.foldr (fun c r => RE.cat (RE.lit c) r) RE.eps

/-- Alternation of a list of regexes, tried left to right. -/
def reAlts : List RE → RE
  | [] => RE.eps
  | [r] => r
  | r :: rest => RE.alt r (reAlts rest)

/-- Alternation of literal words. -/
def reWords (ws : List String) : RE := reAlts (ws.map reStr)

/-- The apostrophe character. -/
def apos : Char := Char.ofNat 39

/-- The trigger phrase containing an apostrophe in pattern 1. -/
def dontForgetTo : String := "don" ++ String.singleton apos ++ "t forget to"

/-- Pattern 1:
`(?:remind me to|remember to|need to|have to|should|must|don't forget to)\s+(.+?)(?:\.|$|\n)`. -/
def pat1 : RE :=
  .cat (reWords ["remind me to", "remember to", "need to", "have to", "should",
                 "must", dontForgetTo])
    (.cat (.plusGreedy .wsp)
      (.cat (.grp (.plusLazy .anyNN))
        (reAlts [.lit (Char.ofNat 46), .eos, .lit (Char.ofNat 10)])))

/-- Pattern 2:
`(?:tomorrow|today|later|this week|next week|this month).*?(exercise|workout|drink|water|call|meeting|appointment|task)`. -/
def pat2 : RE :=
  .cat (reWords ["tomorrow", "today", "later", "this week", "next week", "this month"])
    (.cat (.starLazy .anyNN)
      (.grp (reWords ["exercise", "workout", "drink", "water", "call", "meeting",
                      "appointment", "task"])))

/-- Pattern 3:
`(exercise|workout|gym|run|walk|jog|stretch|yoga)(?:\s+(?:tomorrow|today|later|this week))?`. -/
def pat3 : RE :=
  .cat (.grp (reWords ["exercise", "workout", "gym", "run", "walk", "jog",
                       "stretch", "yoga"]))
    (.opt (.cat (.plusGreedy .wsp) (reWords ["tomorrow", "today", "later", "this week"])))

/-- Pattern 4: `(drink|water|hydrate)(?:\s+(?:more|enough|regularly))?`. -/
def pat4 : RE :=
  .cat (.grp (reWords ["drink", "water", "hydrate"]))
    (.opt (.cat (.plusGreedy .wsp) (reWords ["more", "enough", "regularly"])))

/-- Pattern 5: `(sleep|bed|rest)(?:\s+(?:early|earlier|better|enough))?`. -/
def pat5 : RE :=
  .cat (.grp (reWords ["sleep", "bed", "rest"]))
    (.opt (.cat (.plusGreedy .wsp) (reWords ["early", "earlier", "better", "enough"])))

/-- Pattern 6: `(meditat|mindfulness|breathe)(?:\s+(?:daily|regularly))?`. -/
def pat6 : RE :=
  .cat (.grp (reWords ["meditat", "mindfulness", "breathe"]))
    (.opt (.cat (.plusGreedy .wsp) (reWords ["daily", "regularly"])))

/-- Pattern 7: `(read|study|learn)(?:\s+(?:more|daily|tonight))?`. -/
def pat7 : RE :=
  .cat (.grp (reWords ["read", "study", "learn"]))
    (.opt (.cat (.plusGreedy .wsp) (reWords ["more", "daily", "tonight"])))

/-- The `reminderPatterns` array, in source order. -/
def reminderPatternList : List RE := [pat1, pat2, pat3, pat4, pat5, pat6, pat7]

/-! ### Data model -/

/-- The `priority` enum of a reminder. -/
inductive Priority where
  | high
  | medium
  | low
deriving DecidableEq

/-- The `Note` interface (the `type` and `tags` fields are never read by the
reminder extractor and are omitted). -/
structure Note where
  id : String
  content : String
  transcript : Option String
  timestamp : String
deriving DecidableEq

/-- The `Reminder` interface. -/
structure Reminder where
  id : String
  noteId : String
  text : String
  extractedFrom : String
  priority : Priority
  category : String
  suggestedTime : Option String
  isCompleted : Bool
  isDismissed : Bool
  createdAt : String
deriving DecidableEq

/-- `note.transcript || note.content`: an absent or empty transcript is falsy. -/
def noteBody (n : Note) : String :=
  match n.transcript with
  | some t => if t = "" then n.content else t
  | none => n.content

/-! ### Keyword heuristics -/

/-- `highPriorityWords`. -/
def highPriorityWords : List String :=
  ["urgent", "important", "asap", "immediately", "critical", "deadline"]

/-- `lowPriorityWords`. -/
def lowPriorityWords : List String :=
  ["maybe", "eventually", "someday", "if possible"]

/-- `determinePriority`: high-keyword check takes precedence, then low, else medium. -/
def determinePriority (text : String) : Priority :=
  let lowerText := toLowerStr text
  if highPriorityWords.any (fun w => strIncludes lowerText w) then .high
  else if lowPriorityWords.any (fun w => strIncludes lowerText w) then .low
  else .medium

/-- `categorizeReminder`: first keyword group that occurs in the lowercased text.
Each regex it tests is a plain alternation of literals, so `match` is truthy
exactly when one of the words is a substring. -/
def categorizeReminder (text : String) : String :=
  let lowerText := toLowerStr text
  if ["exercise", "workout", "gym", "run", "walk", "jog", "stretch", "yoga",
      "fitness"].any (fun w => strIncludes lowerText w) then "fitness"
  else if ["drink", "water", "hydrate"].any (fun w => strIncludes lowerText w) then
    "hydration"
  else if ["sleep", "bed", "rest"].any (fun w => strIncludes lowerText w) then
    "sleep"
  else if ["meditat", "mindfulness", "breathe"].any (fun w => strIncludes lowerText w) then
    "mindfulness"
  else if ["read", "study", "learn"].any (fun w => strIncludes lowerText w) then
    "learning"
  else if ["call", "meeting", "appointment", "work"].any (fun w => strIncludes lowerText w) then
    "work"
  else if ["eat", "meal", "food", "cook"].any (fun w => strIncludes lowerText w) then
    "nutrition"
  else "general"

/-! ### Time hints -/

/-- The sources of the nine `timePatterns`, in order.  None of them contains a
regex metacharacter, and each carries the `i` flag, so `pattern.test(text)` is a
case-insensitive substring test of the source. -/
def timeHintSources : List String :=
  ["tomorrow", "today", "tonight", "this morning", "this afternoon",
   "this evening", "this week", "next week", "this month"]

/-- The metacharacter set removed by
`pattern.source.replace(/[\/\\^$*+?.()|[\]{}]/g, '')`. -/
def isRegexMeta (c : Char) : Bool :=
  c.toNat = 47 || c.toNat = 92 || c.toNat = 94 || c.toNat = 36 || c.toNat = 42 ||
  c.toNat = 43 || c.toNat = 63 || c.toNat = 46 || c.toNat = 40 || c.toNat = 41 ||
  c.toNat = 124 || c.toNat = 91 || c.toNat = 93 || c.toNat = 123 || c.toNat = 125

/-- `.replace('i', '')` with a string first argument replaces only the first
occurrence of `i`. -/
def removeFirstI : List Char → List Char
  | [] => []
  | c :: rest => if c.toNat = 105 then rest else c :: removeFirstI rest

/-- `extractTimeHint`: the first time pattern whose `test` succeeds anywhere in
the note body; the returned text is the pattern source with regex
metacharacters stripped and the first `i` removed. -/
def extractTimeHint (text : String) : Option String :=
  (timeHintSources.find? (fun w => strIncludes (toLowerStr text) w)).map
    (fun w => String.mk (removeFirstI (w.data.filter (fun c => !isRegexMeta c))))

/-! ### Levenshtein distance and similarity -/

/-- The dynamic-programming table of `levenshteinDistance`.  `levM s1 s2 fuel i j`
is `matrix[i][j]` of the source: the first row is `0..str1.length`, the first
column is `0..str2.length`, and the interior cell compares `str2.charAt(i-1)`
with `str1.charAt(j-1)` and takes
`min(matrix[i-1][j-1]+1, matrix[i][j-1]+1, matrix[i-1][j]+1)` otherwise.  The
cell (i, j) only depends on cells whose index sum is smaller, so any
`fuel > i + j` computes the table exactly; the explicit fuel keeps the
recursion structural. -/
def levM (s1 s2 : List Char) : ℕ → ℕ → ℕ → ℕ
  | 0, _, _ => 0
  | _ + 1, 0, j => j
  | _ + 1, i + 1, 0 => i + 1
  | fuel + 1, i + 1, j + 1 =>
      if s2.getD i (Char.ofNat 0) = s1.getD j (Char.ofNat 0) then
        levM s1 s2 fuel i j
      else
        min (levM s1 s2 fuel i j + 1)
          (min (levM s1 s2 fuel (i + 1) j + 1) (levM s1 s2 fuel i (j + 1) + 1))

/-- `levenshteinDistance(str1, str2)`: the bottom-right cell
`matrix[str2.length][str1.length]`. -/
def levenshteinDistance (str1 str2 : String) : ℕ :=
  levM str1.data str2.data (str2.data.length + str1.data.length + 1)
    str2.data.length str1.data.length

/-- `similarity(str1, str2) = (longer.length - editDistance) / longer.length`,
where `longer` is the longer of the two (ties go to `str2`). -/
def similarity (str1 str2 : String) : ℚ :=
  let longer := if str1.length > str2.length then str1 else str2
  let shorter := if str1.length > str2.length then str2 else str1
  let editDistance := levenshteinDistance longer shorter
  ((longer.length : ℚ) - (editDistance : ℚ)) / (longer.length : ℚ)

/-! ### Candidate extraction pipeline -/

/-- A candidate reminder before the nondeterministic `id` is attached: all fields
produced inside the `reminders.push` call except `id` and the two flags (which
are constantly `false` at creation). -/
structure Cand where
  noteId : String
  text : String
  extractedFrom : String
  priority : Priority
  category : String
  suggestedTime : Option String
  createdAt : String
deriving DecidableEq

/-- The candidates one note contributes, in source order: patterns in array
order, matches of each pattern in `exec` order.  `match[1] || match[0]` is the
capture when it is a nonempty string, else the whole match; candidates of
length `<= 3` are discarded.  `extractedFrom` is the 20-character context
window `text.substring(max(0, index - 20), index + match[0].length + 20)`. -/
def candidatesOfNote (note : Note) : List Cand :=
  let text := noteBody note
  reminderPatternList.flatMap (fun pat =>
    (execAll pat text.data).filterMap (fun md =>
      let rText :=
        match md.mGrp with
        | some g => if g.isEmpty then md.mStr else g
        | none => md.mStr
      if rText.length > 3 then
        some { noteId := note.id,
               text := String.mk (jsTrim rText),
               extractedFrom :=
                 String.mk ((text.data.take (md.mIdx + md.mStr.length + 20)).drop
                   (md.mIdx - 20)),
               priority := determinePriority (String.mk rText),
               category := categorizeReminder (String.mk rText),
               suggestedTime := extractTimeHint text,
               createdAt := note.timestamp }
      else none))

/-- Attach the `id`.  The source computes
`${note.id}-${Date.now()}-${Math.random()}`; the time/random suffix of the k-th
pushed reminder is `clk k`. -/
def mkReminder (clk : ℕ → String) (k : ℕ) (c : Cand) : Reminder :=
  { id := c.noteId ++ "-" ++ clk k,
    noteId := c.noteId,
    text := c.text,
    extractedFrom := c.extractedFrom,
    priority := c.priority,
    category := c.category,
    suggestedTime := c.suggestedTime,
    isCompleted := false,
    isDismissed := false,
    createdAt := c.createdAt }

/-- The full `reminders` array accumulated by the nested `forEach` loops; the
push counter is the position in the flattened candidate list. -/
def rawCandidates (clk : ℕ → String) (notes : List Note) : List Reminder :=
  (notes.flatMap candidatesOfNote).enum.map (fun kc => mkReminder clk kc.1 kc.2)

/-- The deduplication filter:
`reminders.filter((r, i) => !reminders.slice(0, i).some(e => similarity(e.text, r.text) > 0.7))`.
Note that `reminders.slice(0, i)` is the prefix of the original array, so a
candidate is compared against every earlier candidate, kept or not. -/
def dedup (rs : List Reminder) : List Reminder :=
  (rs.enum.filter (fun ir =>
    !((rs.take ir.1).any (fun ex => decide (similarity ex.text ir.2.text > 0.7))))).map
    (fun ir => ir.2)

/-- `priorityOrder = { high: 3, medium: 2, low: 1 }`. -/
def priorityWeight : Priority → ℕ
  | .high => 3
  | .medium => 2
  | .low => 1

/-- Insert a reminder into an already processed (descending) list, after every
element of greater or equal weight: the unique stable position. -/
def insertDesc (r : Reminder) : List Reminder → List Reminder
  | [] => [r]
  | x :: xs =>
      if priorityWeight x.priority < priorityWeight r.priority then r :: x :: xs
      else x :: insertDesc r xs

/-- Left-to-right stable insertion sort. -/
def sortGo : List Reminder → List Reminder → List Reminder
  | acc, [] => acc
  | acc, x :: xs => sortGo (insertDesc x acc) xs

/-- `uniqueReminders.sort((a, b) => priorityOrder[b.priority] - priorityOrder[a.priority])`.
`Array.prototype.sort` is stable (ES2019) and the comparator is a consistent
preorder on the three weights, so its result is the unique stable descending
ordering, realised here as a stable insertion sort. -/
def sortByPriorityDesc (rs : List Reminder) : List Reminder := sortGo [] rs

/-- `extractRemindersFromNotes`. -/
def extractRemindersFromNotes (clk : ℕ → String) (notes : List Note) : List Reminder :=
  sortByPriorityDesc (dedup (rawCandidates clk notes))

/-! ### Carry-over merge and the two user actions -/

/-- Lookup in `new Map(prev.map(r => [r.noteId + r.text, r]))`: with duplicate
keys the `Map` constructor keeps the last entry, so this scans left to right
remembering the last reminder whose concatenated key matches. -/
def lastWithKey (prev : List Reminder) (key : String) : Option Reminder :=
  prev.foldl (fun acc r => if r.noteId ++ r.text = key then some r else acc) none

/-- The `useEffect` merge: each freshly extracted reminder inherits
`isCompleted` / `isDismissed` from the previous reminder with the same
`noteId + text` key, when one exists. -/
def mergeReminders (prev extracted : List Reminder) : List Reminder :=
  extracted.map (fun n =>
    match lastWithKey prev (n.noteId ++ n.text) with
    | some ex => { n with isCompleted := ex.isCompleted, isDismissed := ex.isDismissed }
    | none => n)

/-- `completeReminder`: toggle `isCompleted` on the reminder(s) with the given id.
It maps over the current reminder list only; the note set is not an input and
extraction is not re-run. -/
def completeReminder (reminderId : String) (rs : List Reminder) : List Reminder :=
  rs.map (fun r =>
    if r.id = reminderId then { r with isCompleted := !r.isCompleted } else r)

/-- `dismissReminder`: set `isDismissed` on the reminder(s) with the given id. -/
def dismissReminder (reminderId : String) (rs : List Reminder) : List Reminder :=
  rs.map (fun r =>
    if r.id = reminderId then { r with isDismissed := true } else r)

/-! ### Specification of Levenshtein distance

`levSpec` is the textbook recurrence for edit distance; `EditStep` / `EditsIn`
formalise single-character edit operations (substitution, deletion, insertion,
each of cost 1, at an arbitrary position) and scripts of a given length.  The
development below proves that `levSpec a b` is the least `n` with
`EditsIn n a b`, and that the DP table `levM` of the source computes it. -/

/-- Textbook Levenshtein recurrence. -/
def levSpec : List Char → List Char → ℕ
  | [], ys => ys.length
  | x :: xs, [] => (x :: xs).length
  | x :: xs, y :: ys =>
      if x = y then levSpec xs ys
      else 1 + min (levSpec xs ys) (min (levSpec xs (y :: ys)) (levSpec (x :: xs) ys))
termination_by a b => (a, b)

/-- One single-character edit: substitution, deletion or insertion at some
position (the position is reached through `cons`). -/
inductive EditStep : List Char → List Char → Prop where
  | substHere (x y : Char) (t : List Char) (h : x ≠ y) : EditStep (x :: t) (y :: t)
  | deleteHere (x : Char) (t : List Char) : EditStep (x :: t) t
  | insertHere (x : Char) (t : List Char) : EditStep t (x :: t)
  | cons (x : Char) {t t2 : List Char} : EditStep t t2 → EditStep (x :: t) (x :: t2)

/-- `EditsIn n a b`: `a` is transformed into `b` by exactly `n` single edits. -/
def EditsIn : ℕ → List Char → List Char → Prop
  | 0, a, b => a = b
  | n + 1, a, b => ∃ c, EditStep a c ∧ EditsIn n c b

theorem editsIn_zero {a b : List Char} : EditsIn 0 a b ↔ a = b := Iff.rfl

theorem editsIn_succ {n : ℕ} {a b : List Char} :
    EditsIn (n + 1) a b ↔ ∃ c, EditStep a c ∧ EditsIn n c b := Iff.rfl

theorem editsIn_single {a b : List Char} (h : EditStep a b) : EditsIn 1 a b :=
  editsIn_succ.2 ⟨b, h, rfl⟩

theorem editsIn_comp : ∀ {m n : ℕ} {a b c : List Char},
    EditsIn m a b → EditsIn n b c → EditsIn (m + n) a c := by
  intro m
  induction m with
  | zero =>
      intro n a b c hab hbc
      rw [editsIn_zero] at hab
      subst hab
      simpa using hbc
  | succ m ih =>
      intro n a b c hab hbc
      obtain ⟨d, hd, hrest⟩ := editsIn_succ.1 hab
      have : EditsIn (m + n + 1) a c := editsIn_succ.2 ⟨d, hd, ih hrest hbc⟩
      have harith : m + 1 + n = m + n + 1 := by omega
      rwa [harith]

theorem editsIn_cons {n : ℕ} {a b : List Char} (x : Char) (h : EditsIn n a b) :
    EditsIn n (x :: a) (x :: b) := by
  induction n generalizing a with
  | zero => simp only [EditsIn] at h ⊢; rw [h]
  | succ n ih =>
      obtain ⟨c, hc, hrest⟩ := h
      exact ⟨x :: c, EditStep.cons x hc, ih hrest⟩

theorem editStep_snoc {a b : List Char} (c : Char) (h : EditStep a b) :
    EditStep (a ++ [c]) (b ++ [c]) := by
  induction h with
  | substHere x y t hxy => exact EditStep.substHere x y (t ++ [c]) hxy
  | deleteHere x t => exact EditStep.deleteHere x (t ++ [c])
  | insertHere x t => exact EditStep.insertHere x (t ++ [c])
  | cons x _ ih => exact EditStep.cons x ih

theorem editStep_subst_last (x y : Char) (hxy : x ≠ y) :
    ∀ s : List Char, EditStep (s ++ [x]) (s ++ [y]) := by
  intro s
  induction s with
  | nil => exact EditStep.substHere x y [] hxy
  | cons c s ih => exact EditStep.cons c ih

theorem editStep_delete_last (x : Char) : ∀ s : List Char, EditStep (s ++ [x]) s := by
  intro s
  induction s with
  | nil => exact EditStep.deleteHere x []
  | cons c s ih => exact EditStep.cons c ih

theorem editStep_insert_last (x : Char) : ∀ s : List Char, EditStep s (s ++ [x]) := by
  intro s
  induction s with
  | nil => exact EditStep.insertHere x []
  | cons c s ih => exact EditStep.cons c ih

theorem editStep_reverse {a b : List Char} (h : EditStep a b) :
    EditStep a.reverse b.reverse := by
  induction h with
  | substHere x y t hxy => simpa using editStep_subst_last x y hxy t.reverse
  | deleteHere x t => simpa using editStep_delete_last x t.reverse
  | insertHere x t => simpa using editStep_insert_last x t.reverse
  | cons x h ih => simpa using editStep_snoc x ih

theorem editStep_symm {a b : List Char} (h : EditStep a b) : EditStep b a := by
  induction h with
  | substHere x y t hxy => exact EditStep.substHere y x t (Ne.symm hxy)
  | deleteHere x t => exact EditStep.insertHere x t
  | insertHere x t => exact EditStep.deleteHere x t
  | cons x _ ih => exact EditStep.cons x ih

theorem editsIn_reverse {n : ℕ} {a b : List Char} (h : EditsIn n a b) :
    EditsIn n a.reverse b.reverse := by
  induction n generalizing a with
  | zero => simp only [EditsIn] at h ⊢; rw [h]
  | succ n ih =>
      obtain ⟨c, hc, hrest⟩ := h
      exact ⟨c.reverse, editStep_reverse hc, ih hrest⟩

theorem editsIn_symm {n : ℕ} {a b : List Char} (h : EditsIn n a b) : EditsIn n b a := by
  induction n generalizing a b with
  | zero => simp only [EditsIn] at h ⊢; rw [h]
  | succ n ih =>
      obtain ⟨c, hc, hrest⟩ := h
      have h1 : EditsIn n b c := ih hrest
      have h2 : EditsIn 1 c a := editsIn_single (editStep_symm hc)
      simpa using editsIn_comp h1 h2

theorem levSpec_nil_left (ys : List Char) : levSpec [] ys = ys.length := by
  rw [levSpec]

theorem levSpec_cons_nil (x : Char) (xs : List Char) :
    levSpec (x :: xs) [] = xs.length + 1 := by
  rw [levSpec]
  rfl

theorem levSpec_nil_right (a : List Char) : levSpec a [] = a.length := by
  cases a with
  | nil => rw [levSpec_nil_left]
  | cons x xs => rw [levSpec_cons_nil]; rfl

theorem levSpec_cons_cons (x y : Char) (xs ys : List Char) :
    levSpec (x :: xs) (y :: ys) =
      if x = y then levSpec xs ys
      else 1 + min (levSpec xs ys) (min (levSpec xs (y :: ys)) (levSpec (x :: xs) ys)) := by
  rw [levSpec]

theorem levSpec_self : ∀ a : List Char, levSpec a a = 0 := by
  intro a
  induction a with
  | nil => rw [levSpec_nil_left]; rfl
  | cons x xs ih => rw [levSpec_cons_cons, if_pos rfl, ih]

theorem editsIn_inserts : ∀ ys : List Char, EditsIn ys.length [] ys := by
  intro ys
  induction ys with
  | nil => exact editsIn_zero.2 rfl
  | cons y ys ih =>
      have hstep : EditsIn 1 ys (y :: ys) := editsIn_single (EditStep.insertHere y ys)
      simpa using editsIn_comp ih hstep

theorem editsIn_deletes : ∀ xs : List Char, EditsIn xs.length xs [] := by
  intro xs
  induction xs with
  | nil => exact editsIn_zero.2 rfl
  | cons x xs ih => exact editsIn_succ.2 ⟨xs, EditStep.deleteHere x xs, ih⟩

theorem editsIn_levSpec : ∀ (a b : List Char), EditsIn (levSpec a b) a b
  | [], ys => by rw [levSpec_nil_left]; exact editsIn_inserts ys
  | x :: xs, [] => by
      rw [levSpec_cons_nil]
      simpa using editsIn_deletes (x :: xs)
  | x :: xs, y :: ys => by
      rw [levSpec_cons_cons]
      by_cases hxy : x = y
      · subst hxy
        rw [if_pos rfl]
        exact editsIn_cons x (editsIn_levSpec xs ys)
      · rw [if_neg hxy]
        rcases le_total (levSpec xs ys) (min (levSpec xs (y :: ys)) (levSpec (x :: xs) ys))
          with h | h
        · rw [min_eq_left h, Nat.add_comm]
          exact editsIn_succ.2
            ⟨y :: xs, EditStep.substHere x y xs hxy, editsIn_cons y (editsIn_levSpec xs ys)⟩
        · rw [min_eq_right h]
          rcases le_total (levSpec xs (y :: ys)) (levSpec (x :: xs) ys) with h2 | h2
          · rw [min_eq_left h2, Nat.add_comm]
            exact editsIn_succ.2 ⟨xs, EditStep.deleteHere x xs, editsIn_levSpec xs (y :: ys)⟩
          · rw [min_eq_right h2, Nat.add_comm]
            exact editsIn_succ.2
              ⟨y :: x :: xs, EditStep.insertHere y (x :: xs),
               editsIn_cons y (editsIn_levSpec (x :: xs) ys)⟩
termination_by a b => (a, b)

theorem levSpec_slack : ∀ (N : ℕ) (a b : List Char), a.length + b.length ≤ N →
    (∀ x, levSpec (x :: a) b ≤ levSpec a b + 1) ∧
    (∀ y, levSpec a (y :: b) ≤ levSpec a b + 1) ∧
    (∀ x, levSpec a b ≤ levSpec (x :: a) b + 1) ∧
    (∀ y, levSpec a b ≤ levSpec a (y :: b) + 1) := by
  intro N
  induction N with
  | zero =>
      intro a b h
      have ha : a = [] := List.length_eq_zero.1 (by omega)
      have hb : b = [] := List.length_eq_zero.1 (by omega)
      subst ha
      subst hb
      refine ⟨?_, ?_, ?_, ?_⟩ <;> intro c <;>
        simp [levSpec_nil_left, levSpec_cons_nil, levSpec_nil_right]
  | succ N ih =>
      intro a b hN
      refine ⟨?_, ?_, ?_, ?_⟩
      · intro x
        cases b with
        | nil =>
            rw [levSpec_cons_nil, levSpec_nil_right]
        | cons y ys =>
            have hle : a.length + ys.length ≤ N := by
              simp only [List.length_cons] at hN
              omega
            rw [levSpec_cons_cons]
            by_cases hxy : x = y
            · subst hxy
              rw [if_pos rfl]
              exact (ih a ys hle).2.2.2 x
            · rw [if_neg hxy]
              have h1 := min_le_right (levSpec a ys)
                (min (levSpec a (y :: ys)) (levSpec (x :: a) ys))
              have h2 := min_le_left (levSpec a (y :: ys)) (levSpec (x :: a) ys)
              omega
      · intro y
        cases a with
        | nil =>
            rw [levSpec_nil_left, levSpec_nil_left]
            simp only [List.length_cons]
            omega
        | cons x xs =>
            have hle : xs.length + b.length ≤ N := by
              simp only [List.length_cons] at hN
              omega
            rw [levSpec_cons_cons]
            by_cases hxy : x = y
            · subst hxy
              rw [if_pos rfl]
              exact (ih xs b hle).2.2.1 x
            · rw [if_neg hxy]
              have h1 := min_le_right (levSpec xs b)
                (min (levSpec xs (y :: b)) (levSpec (x :: xs) b))
              have h2 := min_le_right (levSpec xs (y :: b)) (levSpec (x :: xs) b)
              omega
      · intro x
        cases b with
        | nil =>
            rw [levSpec_nil_right, levSpec_cons_nil]
            omega
        | cons y ys =>
            have hle : a.length + ys.length ≤ N := by
              simp only [List.length_cons] at hN
              omega
            rw [levSpec_cons_cons]
            by_cases hxy : x = y
            · subst hxy
              rw [if_pos rfl]
              exact (ih a ys hle).2.1 x
            · rw [if_neg hxy]
              have hQ := (ih a ys hle).2.1 y
              have hP2 := (ih a ys hle).2.2.1 x
              rcases min_cases (levSpec a ys)
                  (min (levSpec a (y :: ys)) (levSpec (x :: a) ys)) with ⟨h1, -⟩ | ⟨h1, -⟩ <;>
                rcases min_cases (levSpec a (y :: ys)) (levSpec (x :: a) ys)
                  with ⟨h2, -⟩ | ⟨h2, -⟩ <;> omega
      · intro y
        cases a with
        | nil =>
            rw [levSpec_nil_left, levSpec_nil_left]
            simp only [List.length_cons]
            omega
        | cons x xs =>
            have hle : xs.length + b.length ≤ N := by
              simp only [List.length_cons] at hN
              omega
            rw [levSpec_cons_cons]
            by_cases hxy : x = y
            · subst hxy
              rw [if_pos rfl]
              exact (ih xs b hle).1 x
            · rw [if_neg hxy]
              have hP := (ih xs b hle).1 x
              have hQ2 := (ih xs b hle).2.2.2 y
              rcases min_cases (levSpec xs b)
                  (min (levSpec xs (y :: b)) (levSpec (x :: xs) b)) with ⟨h1, -⟩ | ⟨h1, -⟩ <;>
                rcases min_cases (levSpec xs (y :: b)) (levSpec (x :: xs) b)
                  with ⟨h2, -⟩ | ⟨h2, -⟩ <;> omega

theorem levSpec_del_le (a b : List Char) (x : Char) :
    levSpec (x :: a) b ≤ levSpec a b + 1 :=
  (levSpec_slack (a.length + b.length) a b le_rfl).1 x

theorem levSpec_ins_le (a b : List Char) (y : Char) :
    levSpec a (y :: b) ≤ levSpec a b + 1 :=
  (levSpec_slack (a.length + b.length) a b le_rfl).2.1 y

theorem levSpec_le_del (a b : List Char) (x : Char) :
    levSpec a b ≤ levSpec (x :: a) b + 1 :=
  (levSpec_slack (a.length + b.length) a b le_rfl).2.2.1 x

theorem levSpec_le_ins (a b : List Char) (y : Char) :
    levSpec a b ≤ levSpec a (y :: b) + 1 :=
  (levSpec_slack (a.length + b.length) a b le_rfl).2.2.2 y

theorem levSpec_subst_le (x y : Char) (t : List Char) :
    ∀ b : List Char, levSpec (x :: t) b ≤ levSpec (y :: t) b + 1 := by
  intro b
  induction b with
  | nil =>
      rw [levSpec_cons_nil, levSpec_cons_nil]
      omega
  | cons c cs ih =>
      rw [levSpec_cons_cons, levSpec_cons_cons]
      by_cases hxc : x = c <;> by_cases hyc : y = c
      · rw [if_pos hxc, if_pos hyc]
        omega
      · rw [if_pos hxc, if_neg hyc]
        have h1 := levSpec_le_ins t cs c
        have h2 := levSpec_le_del t cs y
        rcases min_cases (levSpec t cs) (min (levSpec t (c :: cs)) (levSpec (y :: t) cs))
          with ⟨hm1, -⟩ | ⟨hm1, -⟩ <;>
          rcases min_cases (levSpec t (c :: cs)) (levSpec (y :: t) cs)
            with ⟨hm2, -⟩ | ⟨hm2, -⟩ <;> omega
      · rw [if_neg hxc, if_pos hyc]
        have h1 := min_le_left (levSpec t cs) (min (levSpec t (c :: cs)) (levSpec (x :: t) cs))
        omega
      · rw [if_neg hxc, if_neg hyc]
        have hA := min_le_left (levSpec t cs) (min (levSpec t (c :: cs)) (levSpec (x :: t) cs))
        have hB : min (levSpec t cs) (min (levSpec t (c :: cs)) (levSpec (x :: t) cs)) ≤
            levSpec t (c :: cs) :=
          le_trans (min_le_right _ _) (min_le_left _ _)
        have hC : min (levSpec t cs) (min (levSpec t (c :: cs)) (levSpec (x :: t) cs)) ≤
            levSpec (x :: t) cs :=
          le_trans (min_le_right _ _) (min_le_right _ _)
        rcases min_cases (levSpec t cs) (min (levSpec t (c :: cs)) (levSpec (y :: t) cs))
          with ⟨hm1, -⟩ | ⟨hm1, -⟩ <;>
          rcases min_cases (levSpec t (c :: cs)) (levSpec (y :: t) cs)
            with ⟨hm2, -⟩ | ⟨hm2, -⟩ <;> omega

theorem levSpec_cons_lift (x : Char) {t t2 : List Char}
    (H : ∀ b : List Char, levSpec t b ≤ levSpec t2 b + 1) :
    ∀ b : List Char, levSpec (x :: t) b ≤ levSpec (x :: t2) b + 1 := by
  intro b
  induction b with
  | nil =>
      rw [levSpec_cons_nil, levSpec_cons_nil]
      have h0 := H []
      rw [levSpec_nil_right, levSpec_nil_right] at h0
      omega
  | cons c cs ih =>
      rw [levSpec_cons_cons, levSpec_cons_cons]
      by_cases hxc : x = c
      · rw [if_pos hxc, if_pos hxc]
        exact H cs
      · rw [if_neg hxc, if_neg hxc]
        have h1 := H cs
        have h2 := H (c :: cs)
        have hA := min_le_left (levSpec t cs) (min (levSpec t (c :: cs)) (levSpec (x :: t) cs))
        have hB : min (levSpec t cs) (min (levSpec t (c :: cs)) (levSpec (x :: t) cs)) ≤
            levSpec t (c :: cs) :=
          le_trans (min_le_right _ _) (min_le_left _ _)
        have hC : min (levSpec t cs) (min (levSpec t (c :: cs)) (levSpec (x :: t) cs)) ≤
            levSpec (x :: t) cs :=
          le_trans (min_le_right _ _) (min_le_right _ _)
        rcases min_cases (levSpec t2 cs) (min (levSpec t2 (c :: cs)) (levSpec (x :: t2) cs))
          with ⟨hm1, -⟩ | ⟨hm1, -⟩ <;>
          rcases min_cases (levSpec t2 (c :: cs)) (levSpec (x :: t2) cs)
            with ⟨hm2, -⟩ | ⟨hm2, -⟩ <;> omega

theorem editStep_levSpec_le {a c : List Char} (h : EditStep a c) :
    ∀ b : List Char, levSpec a b ≤ levSpec c b + 1 := by
  induction h with
  | substHere x y t _ => exact levSpec_subst_le x y t
  | deleteHere x t => exact fun b => levSpec_del_le t b x
  | insertHere x t => exact fun b => levSpec_le_del t b x
  | cons x _ ih => exact levSpec_cons_lift x ih

theorem editsIn_levSpec_le : ∀ {n : ℕ} {a b : List Char}, EditsIn n a b → levSpec a b ≤ n := by
  intro n a b h
  induction n generalizing a with
  | zero =>
      rw [editsIn_zero] at h
      subst h
      simp [levSpec_self]
  | succ n ih =>
      obtain ⟨c, hc, hrest⟩ := editsIn_succ.1 h
      have h1 := editStep_levSpec_le hc b
      have h2 := ih hrest
      omega

/-- `levSpec a b` is the minimum number of single-character edits turning `a`
into `b`. -/
theorem levSpec_isLeast (a b : List Char) :
    IsLeast {n | EditsIn n a b} (levSpec a b) :=
  ⟨editsIn_levSpec a b, fun _ hn => editsIn_levSpec_le hn⟩

theorem take_succ_reverse (l : List Char) (n : ℕ) (hn : n < l.length) (d : Char) :
    (l.take (n + 1)).reverse = l.getD n d :: (l.take n).reverse := by
  have h1 : l[n]? = some l[n] := List.getElem?_eq_getElem hn
  have h2 : l.getD n d = l[n] := by
    rw [List.getD_eq_getElem?_getD, h1]
    rfl
  rw [List.take_succ, h1, h2]
  simp

theorem min_succ_shuffle (A B C : ℕ) :
    min (A + 1) (min (C + 1) (B + 1)) = 1 + min A (min B C) := by
  rcases min_cases (C + 1) (B + 1) with ⟨h1, -⟩ | ⟨h1, -⟩ <;>
    rcases min_cases B C with ⟨h2, -⟩ | ⟨h2, -⟩ <;>
    rcases min_cases (A + 1) (min (C + 1) (B + 1)) with ⟨h3, -⟩ | ⟨h3, -⟩ <;>
    rcases min_cases A (min B C) with ⟨h4, -⟩ | ⟨h4, -⟩ <;> omega

/-- The DP table computes the textbook recurrence on reversed prefixes:
`matrix[i][j]` is the distance between the first `j` characters of `str1` and
the first `i` characters of `str2`. -/
theorem levM_eq_spec (s1 s2 : List Char) : ∀ (fuel i j : ℕ), i + j < fuel →
    i ≤ s2.length → j ≤ s1.length →
    levM s1 s2 fuel i j = levSpec ((s2.take i).reverse) ((s1.take j).reverse) := by
  intro fuel
  induction fuel with
  | zero =>
      intro i j h _ _
      omega
  | succ fuel ih =>
      intro i j hfuel hi hj
      cases i with
      | zero =>
          have hL : levM s1 s2 (fuel + 1) 0 j = j := rfl
          rw [hL]
          simp only [List.take_zero, List.reverse_nil, levSpec_nil_left,
            List.length_reverse, List.length_take]
          omega
      | succ i =>
          cases j with
          | zero =>
              have hL : levM s1 s2 (fuel + 1) (i + 1) 0 = i + 1 := rfl
              rw [hL]
              simp only [List.take_zero, List.reverse_nil, levSpec_nil_right,
                List.length_reverse, List.length_take]
              omega
          | succ j =>
              have hi2 : i < s2.length := by omega
              have hj2 : j < s1.length := by omega
              have e2 := take_succ_reverse s2 i hi2 (Char.ofNat 0)
              have e1 := take_succ_reverse s1 j hj2 (Char.ofNat 0)
              simp only [levM]
              by_cases hc : s2.getD i (Char.ofNat 0) = s1.getD j (Char.ofNat 0)
              · rw [if_pos hc]
                rw [ih i j (by omega) (le_of_lt hi2) (le_of_lt hj2)]
                rw [e1, e2, levSpec_cons_cons, if_pos hc]
              · rw [if_neg hc]
                rw [ih i j (by omega) (le_of_lt hi2) (le_of_lt hj2),
                    ih (i + 1) j (by omega) hi2 (le_of_lt hj2),
                    ih i (j + 1) (by omega) (le_of_lt hi2) hj2]
                rw [e1, e2, levSpec_cons_cons, if_neg hc]
                exact min_succ_shuffle (levSpec ((s2.take i).reverse) ((s1.take j).reverse))
                  (levSpec ((s2.take i).reverse)
                    (s1.getD j (Char.ofNat 0) :: (s1.take j).reverse))
                  (levSpec (s2.getD i (Char.ofNat 0) :: (s2.take i).reverse)
                    ((s1.take j).reverse))

theorem levenshteinDistance_eq_spec (str1 str2 : String) :
    levenshteinDistance str1 str2 = levSpec str2.data.reverse str1.data.reverse := by
  unfold levenshteinDistance
  rw [levM_eq_spec str1.data str2.data _ _ _ (by omega) le_rfl le_rfl]
  rw [List.take_length, List.take_length]

/-- The DP of the source computes the least number of single edits from
`str1` to `str2`. -/
theorem levenshteinDistance_isLeast (str1 str2 : String) :
    IsLeast {n | EditsIn n str1.data str2.data} (levenshteinDistance str1 str2) := by
  rw [levenshteinDistance_eq_spec]
  constructor
  · have h1 := (levSpec_isLeast str2.data.reverse str1.data.reverse).1
    have h2 := editsIn_symm (editsIn_reverse h1)
    simpa using h2
  · intro n hn
    have h1 : EditsIn n str2.data str1.data := editsIn_symm hn
    have h2 := editsIn_reverse h1
    exact (levSpec_isLeast str2.data.reverse str1.data.reverse).2 h2

theorem levenshteinDistance_eq_levSpec (a b : String) :
    levenshteinDistance a b = levSpec a.data b.data :=
  IsLeast.unique (levenshteinDistance_isLeast a b) (levSpec_isLeast a.data b.data)

theorem levenshteinDistance_comm (a b : String) :
    levenshteinDistance a b = levenshteinDistance b a := by
  have hset : {n | EditsIn n a.data b.data} = {n | EditsIn n b.data a.data} := by
    ext n
    exact ⟨fun h => editsIn_symm h, fun h => editsIn_symm h⟩
  refine IsLeast.unique (levenshteinDistance_isLeast a b) ?_
  rw [hset]
  exact levenshteinDistance_isLeast b a

theorem levenshteinDistance_self (a : String) : levenshteinDistance a a = 0 := by
  rw [levenshteinDistance_eq_levSpec, levSpec_self]


/-! ### Extraction is deterministic modulo the generated `id`

The only nondeterministic ingredient of `extractRemindersFromNotes` is the
`Date.now()`/`Math.random()` suffix in `id` (the `clk` parameter).  The
development below shows every pipeline stage preserves pointwise equality of
all other fields. -/

/-- Erase the nondeterministic `id` field. -/
def eraseId (r : Reminder) : Reminder := { r with id := "" }

/-- Two reminders that agree on everything except possibly `id`. -/
def SameModId (r1 r2 : Reminder) : Prop := eraseId r1 = eraseId r2

theorem SameModId.text_eq {r1 r2 : Reminder} (h : SameModId r1 r2) :
    r1.text = r2.text := by
  have h2 : (eraseId r1).text = (eraseId r2).text := by
    rw [show eraseId r1 = eraseId r2 from h]
  simpa [eraseId] using h2

theorem SameModId.priority_eq {r1 r2 : Reminder} (h : SameModId r1 r2) :
    r1.priority = r2.priority := by
  have h2 : (eraseId r1).priority = (eraseId r2).priority := by
    rw [show eraseId r1 = eraseId r2 from h]
  simpa [eraseId] using h2

theorem forall₂_append_single {R : Reminder → Reminder → Prop}
    {s1 s2 : List Reminder} {a b : Reminder} (hs : List.Forall₂ R s1 s2) (hab : R a b) :
    List.Forall₂ R (s1 ++ [a]) (s2 ++ [b]) := by
  induction hs with
  | nil => exact List.Forall₂.cons hab List.Forall₂.nil
  | cons hr _ ih => exact List.Forall₂.cons hr ih

theorem any_sim_congr {s1 s2 : List Reminder} (h : List.Forall₂ SameModId s1 s2)
    (t : String) :
    s1.any (fun ex => decide (similarity ex.text t > 0.7)) =
    s2.any (fun ex => decide (similarity ex.text t > 0.7)) := by
  induction h with
  | nil => rfl
  | cons hr _ ih =>
      simp only [List.any_cons]
      rw [hr.text_eq, ih]

/-- Recursive reformulation of `dedup`: `seen` accumulates exactly
`reminders.slice(0, index)` while walking the array. -/
def dedupGo (seen : List Reminder) : List Reminder → List Reminder
  | [] => []
  | r :: rest =>
      if seen.any (fun ex => decide (similarity ex.text r.text > 0.7)) then
        dedupGo (seen ++ [r]) rest
      else
        r :: dedupGo (seen ++ [r]) rest

theorem dedup_go_general : ∀ (suf pre : List Reminder),
    (((suf.enumFrom pre.length).filter
        (fun ir => !(((pre ++ suf).take ir.1).any
          (fun ex => decide (similarity ex.text ir.2.text > 0.7))))).map (fun ir => ir.2))
      = dedupGo pre suf := by
  intro suf
  induction suf with
  | nil => intro pre; rfl
  | cons r rest ih =>
      intro pre
      have htake : (pre ++ r :: rest).take pre.length = pre := by
        have h1 := List.take_left pre (r :: rest)
        simpa using h1
      simp only [List.enumFrom, List.filter_cons]
      rw [htake]
      have hrec := ih (pre ++ [r])
      simp only [List.append_assoc, List.singleton_append, List.length_append,
        List.length_cons, List.length_nil, Nat.zero_add] at hrec
      by_cases hc : pre.any (fun ex => decide (similarity ex.text r.text > 0.7))
      · simp only [hc, Bool.not_true, Bool.false_eq_true, if_false]
        rw [hrec]
        simp [dedupGo, hc]
      · simp only [hc, Bool.not_false, if_true, List.map_cons]
        rw [hrec]
        simp [dedupGo, hc]

theorem dedup_eq_dedupGo (rs : List Reminder) : dedup rs = dedupGo [] rs := by
  have h := dedup_go_general rs []
  simpa [dedup, List.enum] using h

theorem dedupGo_forall₂ : ∀ {l1 l2 : List Reminder},
    List.Forall₂ SameModId l1 l2 → ∀ {seen1 seen2 : List Reminder},
    List.Forall₂ SameModId seen1 seen2 →
    List.Forall₂ SameModId (dedupGo seen1 l1) (dedupGo seen2 l2) := by
  intro l1 l2 hl
  induction hl with
  | nil =>
      intro seen1 seen2 _
      simp [dedupGo]
  | cons hr hrest ih =>
      intro seen1 seen2 hseen
      rename_i a b t1 t2
      simp only [dedupGo]
      rw [hr.text_eq, any_sim_congr hseen b.text]
      have happ := forall₂_append_single hseen hr
      by_cases hc : seen2.any (fun ex => decide (similarity ex.text b.text > 0.7))
      · simp only [hc, if_true]
        exact ih happ
      · simp only [hc, Bool.false_eq_true, if_false]
        exact List.Forall₂.cons hr (ih happ)

theorem dedup_forall₂ {l1 l2 : List Reminder} (h : List.Forall₂ SameModId l1 l2) :
    List.Forall₂ SameModId (dedup l1) (dedup l2) := by
  rw [dedup_eq_dedupGo, dedup_eq_dedupGo]
  exact dedupGo_forall₂ h List.Forall₂.nil

theorem insertDesc_forall₂ {r1 r2 : Reminder} (hr : SameModId r1 r2) :
    ∀ {l1 l2 : List Reminder}, List.Forall₂ SameModId l1 l2 →
    List.Forall₂ SameModId (insertDesc r1 l1) (insertDesc r2 l2) := by
  intro l1 l2 hl
  induction hl with
  | nil => exact List.Forall₂.cons hr List.Forall₂.nil
  | cons hx hrest ih =>
      rename_i a b t1 t2
      simp only [insertDesc]
      rw [hx.priority_eq, hr.priority_eq]
      by_cases hc : priorityWeight b.priority < priorityWeight r2.priority
      · simp only [hc, if_true]
        exact List.Forall₂.cons hr (List.Forall₂.cons hx hrest)
      · simp only [hc, if_false]
        exact List.Forall₂.cons hx ih

theorem sortGo_forall₂ : ∀ {l1 l2 : List Reminder},
    List.Forall₂ SameModId l1 l2 → ∀ {acc1 acc2 : List Reminder},
    List.Forall₂ SameModId acc1 acc2 →
    List.Forall₂ SameModId (sortGo acc1 l1) (sortGo acc2 l2) := by
  intro l1 l2 hl
  induction hl with
  | nil =>
      intro acc1 acc2 hacc
      simpa [sortGo] using hacc
  | cons hx _ ih =>
      intro acc1 acc2 hacc
      simp only [sortGo]
      exact ih (insertDesc_forall₂ hx hacc)

theorem rawCandidates_forall₂ (clk1 clk2 : ℕ → String) (notes : List Note) :
    List.Forall₂ SameModId (rawCandidates clk1 notes) (rawCandidates clk2 notes) := by
  unfold rawCandidates
  generalize (notes.flatMap candidatesOfNote).enum = l
  induction l with
  | nil => exact List.Forall₂.nil
  | cons kc rest ih => exact List.Forall₂.cons rfl ih

theorem extract_forall₂ (clk1 clk2 : ℕ → String) (notes : List Note) :
    List.Forall₂ SameModId (extractRemindersFromNotes clk1 notes)
      (extractRemindersFromNotes clk2 notes) := by
  unfold extractRemindersFromNotes sortByPriorityDesc
  exact sortGo_forall₂ (dedup_forall₂ (rawCandidates_forall₂ clk1 clk2 notes))
    List.Forall₂.nil

theorem forall₂_map_eraseId {l1 l2 : List Reminder}
    (h : List.Forall₂ SameModId l1 l2) : l1.map eraseId = l2.map eraseId := by
  induction h with
  | nil => rfl
  | cons hr _ ih => simp only [List.map_cons, ih]; rw [hr]

theorem mem_take_iff_get {α : Type} (l : List α) (n : ℕ) (x : α) :
    x ∈ l.take n ↔ ∃ j, ∃ hj : j < l.length, j < n ∧ l.get ⟨j, hj⟩ = x := by
  constructor
  · intro hx
    obtain ⟨j, hj, he⟩ := List.getElem_of_mem hx
    have hlen : j < min n l.length := by simpa using hj
    have h1 : j < l.length := by omega
    have h2 : j < n := by omega
    refine ⟨j, h1, h2, ?_⟩
    rw [← he, List.getElem_take]
    rfl
  · rintro ⟨j, hj, hjn, rfl⟩
    have hlen : j < (l.take n).length := by simp; omega
    have : (l.take n).get ⟨j, hlen⟩ = l.get ⟨j, hj⟩ := by
      simp [List.getElem_take]
    rw [← this]
    exact List.get_mem _ _ _

/-- Claim C2 (amended): deduplication keeps a candidate exactly when its
similarity is at most 0.7 with the text of EVERY earlier candidate of the
input sequence — kept or dropped alike (`reminders.slice(0, index)` is a prefix
of the original array, not of the kept ones).  A candidate similar only to an
earlier dropped candidate is therefore still discarded, contrary to the claim
as stated (see the counterexample). -/
theorem c2_dedup_keeps_iff (rs : List Reminder) (r : Reminder) :
    r ∈ dedup rs ↔ ∃ i, ∃ hi : i < rs.length, rs.get ⟨i, hi⟩ = r ∧
      ∀ j (hj : j < i), similarity (rs.get ⟨j, hj.trans hi⟩).text r.text ≤ 0.7 := by
  unfold dedup
  rw [List.mem_map]
  constructor
  · rintro ⟨ir, hmem, rfl⟩
    rw [List.mem_filter] at hmem
    obtain ⟨henum, hpred⟩ := hmem
    rw [List.mem_enum_iff_getElem?] at henum
    rw [List.getElem?_eq_some] at henum
    obtain ⟨hi, hget⟩ := henum
    refine ⟨ir.1, hi, by simpa using hget, ?_⟩
    intro j hj
    simp only [Bool.not_eq_true', List.any_eq_false, decide_eq_true_eq] at hpred
    have hmemtake : rs.get ⟨j, hj.trans hi⟩ ∈ rs.take ir.1 :=
      (mem_take_iff_get rs ir.1 _).2 ⟨j, hj.trans hi, hj, rfl⟩
    have h2 := hpred _ hmemtake
    exact le_of_not_lt h2
  · rintro ⟨i, hi, hget, hsim⟩
    refine ⟨(i, rs.get ⟨i, hi⟩), ?_, by simpa using hget⟩
    rw [List.mem_filter]
    constructor
    · rw [List.mem_enum_iff_getElem?, List.getElem?_eq_some]
      exact ⟨hi, rfl⟩
    · simp only [Bool.not_eq_true', List.any_eq_false, decide_eq_true_eq]
      intro x hx
      obtain ⟨j, hj, hjn, rfl⟩ := (mem_take_iff_get rs i x).1 hx
      rw [hget]
      exact not_lt_of_le (hsim j hjn)

theorem mem_insertDesc (r y : Reminder) : ∀ l : List Reminder,
    y ∈ insertDesc r l ↔ y = r ∨ y ∈ l := by
  intro l
  induction l with
  | nil => simp [insertDesc]
  | cons x xs ih =>
      simp only [insertDesc]
      by_cases hc : priorityWeight x.priority < priorityWeight r.priority
      · simp [hc, List.mem_cons]
      · simp [hc, List.mem_cons, ih]
        tauto

theorem insertDesc_sorted (r : Reminder) : ∀ {l : List Reminder},
    l.Pairwise (fun a b => priorityWeight b.priority ≤ priorityWeight a.priority) →
    (insertDesc r l).Pairwise
      (fun a b => priorityWeight b.priority ≤ priorityWeight a.priority) := by
  intro l hs
  induction l with
  | nil => simp [insertDesc]
  | cons x xs ih =>
      rcases List.pairwise_cons.1 hs with ⟨hx, hxs⟩
      simp only [insertDesc]
      by_cases hc : priorityWeight x.priority < priorityWeight r.priority
      · rw [if_pos hc]
        refine List.pairwise_cons.2 ⟨?_, hs⟩
        intro a ha
        rcases List.mem_cons.1 ha with rfl | ha2
        · omega
        · have := hx a ha2
          omega
      · rw [if_neg hc]
        refine List.pairwise_cons.2 ⟨?_, ih hxs⟩
        intro a ha
        rcases (mem_insertDesc r a xs).1 ha with rfl | ha2
        · omega
        · exact hx a ha2

theorem sortGo_sorted : ∀ (l acc : List Reminder),
    acc.Pairwise (fun a b => priorityWeight b.priority ≤ priorityWeight a.priority) →
    (sortGo acc l).Pairwise
      (fun a b => priorityWeight b.priority ≤ priorityWeight a.priority) := by
  intro l
  induction l with
  | nil => intro acc h; simpa [sortGo] using h
  | cons x xs ih =>
      intro acc h
      simp only [sortGo]
      exact ih _ (insertDesc_sorted x h)

theorem filter_insertDesc (p : Priority) (r : Reminder) : ∀ {l : List Reminder},
    l.Pairwise (fun a b => priorityWeight b.priority ≤ priorityWeight a.priority) →
    (insertDesc r l).filter (fun x => decide (x.priority = p)) =
      l.filter (fun x => decide (x.priority = p)) ++
        (if r.priority = p then [r] else []) := by
  intro l hs
  induction l with
  | nil =>
      by_cases hr : r.priority = p <;> simp [insertDesc, List.filter_cons, hr]
  | cons x xs ih =>
      rcases List.pairwise_cons.1 hs with ⟨hx, hxs⟩
      simp only [insertDesc]
      by_cases hc : priorityWeight x.priority < priorityWeight r.priority
      · rw [if_pos hc]
        by_cases hr : r.priority = p
        · have hempty : (x :: xs).filter (fun y => decide (y.priority = p)) = [] := by
            rw [List.filter_eq_nil_iff]
            intro y hy
            have hyx : priorityWeight y.priority ≤ priorityWeight x.priority := by
              rcases List.mem_cons.1 hy with rfl | hy2
              · omega
              · exact hx y hy2
            simp only [decide_eq_true_eq]
            intro hyp
            rw [hyp] at hyx
            have hw : priorityWeight r.priority = priorityWeight p := by rw [hr]
            omega
          simp [List.filter_cons, hr, hempty]
        · simp [List.filter_cons, hr]
      · rw [if_neg hc]
        simp only [List.filter_cons]
        rw [ih hxs]
        by_cases hxp : x.priority = p <;> simp [hxp]

theorem filter_sortGo (p : Priority) : ∀ (l acc : List Reminder),
    acc.Pairwise (fun a b => priorityWeight b.priority ≤ priorityWeight a.priority) →
    (sortGo acc l).filter (fun x => decide (x.priority = p)) =
      acc.filter (fun x => decide (x.priority = p)) ++
        l.filter (fun x => decide (x.priority = p)) := by
  intro l
  induction l with
  | nil => intro acc _; simp [sortGo]
  | cons x xs ih =>
      intro acc hacc
      simp only [sortGo]
      rw [ih _ (insertDesc_sorted x hacc)]
      rw [filter_insertDesc p x hacc]
      by_cases hxp : x.priority = p <;> simp [List.filter_cons, hxp]

def pairNT (r : Reminder) : String × String := (r.noteId, r.text)

theorem SameModId.noteId_eq {r1 r2 : Reminder} (h : SameModId r1 r2) :
    r1.noteId = r2.noteId := by
  have h2 : (eraseId r1).noteId = (eraseId r2).noteId := by
    rw [show eraseId r1 = eraseId r2 from h]
  simpa [eraseId] using h2

theorem forall₂_map_pairNT {l1 l2 : List Reminder}
    (h : List.Forall₂ SameModId l1 l2) : l1.map pairNT = l2.map pairNT := by
  induction h with
  | nil => rfl
  | cons hr _ ih =>
      simp only [List.map_cons, ih, pairNT]
      rw [hr.noteId_eq, hr.text_eq]

theorem mergeReminders_map_pairNT (prev l : List Reminder) :
    (mergeReminders prev l).map pairNT = l.map pairNT := by
  unfold mergeReminders
  rw [List.map_map]
  apply List.map_congr_left
  intro n _
  cases h : lastWithKey prev (n.noteId ++ n.text) <;> simp [h, pairNT]

theorem completeReminder_map_pairNT (rid : String) (l : List Reminder) :
    (completeReminder rid l).map pairNT = l.map pairNT := by
  unfold completeReminder
  rw [List.map_map]
  apply List.map_congr_left
  intro n _
  by_cases h : n.id = rid <;> simp [h, pairNT]

theorem lwk_fold_isSome_of_acc : ∀ (l : List Reminder) (k : String) (acc : Option Reminder),
    acc.isSome →
    (l.foldl (fun a r => if r.noteId ++ r.text = k then some r else a) acc).isSome := by
  intro l
  induction l with
  | nil => intro k acc h; simpa using h
  | cons y ys ih =>
      intro k acc h
      simp only [List.foldl_cons]
      by_cases hc : y.noteId ++ y.text = k
      · exact ih k _ (by simp [hc])
      · exact ih k _ (by simp [hc]; exact h)

theorem lwk_isSome {l : List Reminder} {k : String} (x : Reminder)
    (hx : x ∈ l) (hk : x.noteId ++ x.text = k) : (lastWithKey l k).isSome := by
  unfold lastWithKey
  induction l generalizing x with
  | nil => cases hx
  | cons y ys ih =>
      simp only [List.foldl_cons]
      rcases List.mem_cons.1 hx with rfl | hx2
      · rw [if_pos hk]
        exact lwk_fold_isSome_of_acc ys k (some x) rfl
      · by_cases hc : y.noteId ++ y.text = k
        · rw [if_pos hc]
          exact lwk_fold_isSome_of_acc ys k (some y) rfl
        · rw [if_neg hc]
          exact ih x hx2 hk

theorem lwk_fold_mem : ∀ (l : List Reminder) (k : String) (acc : Option Reminder) (e : Reminder),
    l.foldl (fun a r => if r.noteId ++ r.text = k then some r else a) acc = some e →
    (e ∈ l ∧ e.noteId ++ e.text = k) ∨ acc = some e := by
  intro l
  induction l with
  | nil => intro k acc e h; exact Or.inr h
  | cons y ys ih =>
      intro k acc e h
      simp only [List.foldl_cons] at h
      by_cases hc : y.noteId ++ y.text = k
      · rw [if_pos hc] at h
        rcases ih k (some y) e h with ⟨hm, hk⟩ | hacc
        · exact Or.inl ⟨List.mem_cons_of_mem y hm, hk⟩
        · have : y = e := by simpa using hacc
          subst this
          exact Or.inl ⟨List.mem_cons_self y ys, hc⟩
      · rw [if_neg hc] at h
        rcases ih k acc e h with ⟨hm, hk⟩ | hacc
        · exact Or.inl ⟨List.mem_cons_of_mem y hm, hk⟩
        · exact Or.inr hacc

theorem lastWithKey_mem {l : List Reminder} {k : String} {e : Reminder}
    (h : lastWithKey l k = some e) : e ∈ l ∧ e.noteId ++ e.text = k := by
  unfold lastWithKey at h
  rcases lwk_fold_mem l k none e h with hgood | hbad
  · exact hgood
  · cases hbad

/-- Claim C3 (amended): completing a reminder and re-running extraction on an
unchanged note set preserves `isCompleted = true` through the merge, PROVIDED
the concatenated merge key `noteId ++ text` of the completed reminder is not
shared by another reminder in the current list.  The code keys its `Map` by the
string concatenation `r.noteId + r.text`, and on duplicate keys the last entry
wins, so distinct `(noteId, text)` pairs with equal concatenation can steal the
flags (see the counterexample). -/
theorem c3_completion_preserved_amended (notes : List Note) (clk0 clk1 : ℕ → String) (prev0 : List Reminder)
    (rid : String) (r : Reminder)
    (hprev : r ∈ completeReminder rid
      (mergeReminders prev0 (extractRemindersFromNotes clk0 notes)))
    (hc : r.isCompleted = true)
    (huniq : ∀ r2 ∈ completeReminder rid
      (mergeReminders prev0 (extractRemindersFromNotes clk0 notes)),
      r2.noteId ++ r2.text = r.noteId ++ r.text → r2 = r) :
    ∃ r2 ∈ mergeReminders
      (completeReminder rid (mergeReminders prev0 (extractRemindersFromNotes clk0 notes)))
      (extractRemindersFromNotes clk1 notes),
      r2.noteId = r.noteId ∧ r2.text = r.text ∧ r2.isCompleted = true := by
  have hpair_prev : (completeReminder rid
      (mergeReminders prev0 (extractRemindersFromNotes clk0 notes))).map pairNT =
      (extractRemindersFromNotes clk0 notes).map pairNT := by
    rw [completeReminder_map_pairNT, mergeReminders_map_pairNT]
  have hpair_ext : (extractRemindersFromNotes clk0 notes).map pairNT =
      (extractRemindersFromNotes clk1 notes).map pairNT :=
    forall₂_map_pairNT (extract_forall₂ clk0 clk1 notes)
  have hr_pair : pairNT r ∈ (extractRemindersFromNotes clk1 notes).map pairNT := by
    rw [← hpair_ext, ← hpair_prev]
    exact List.mem_map_of_mem pairNT hprev
  obtain ⟨n, hnE1, hn_pair⟩ := List.mem_map.1 hr_pair
  have hnoteId : n.noteId = r.noteId := congrArg Prod.fst hn_pair
  have htext : n.text = r.text := congrArg Prod.snd hn_pair
  have hkey : n.noteId ++ n.text = r.noteId ++ r.text := by rw [hnoteId, htext]
  have hsome := lwk_isSome r hprev rfl
  obtain ⟨e, he⟩ := Option.isSome_iff_exists.1 hsome
  have hem := lastWithKey_mem he
  have her : e = r := huniq e hem.1 hem.2
  have hmem : (match lastWithKey
      (completeReminder rid (mergeReminders prev0 (extractRemindersFromNotes clk0 notes)))
      (n.noteId ++ n.text) with
    | some ex => { n with isCompleted := ex.isCompleted, isDismissed := ex.isDismissed }
    | none => n) ∈ mergeReminders
      (completeReminder rid (mergeReminders prev0 (extractRemindersFromNotes clk0 notes)))
      (extractRemindersFromNotes clk1 notes) := by
    unfold mergeReminders
    exact List.mem_map_of_mem _ hnE1
  rw [hkey, he] at hmem
  exact ⟨{ n with isCompleted := e.isCompleted, isDismissed := e.isDismissed },
    hmem, by simpa using hnoteId, by simpa using htext, by simp [her, hc]⟩

/-! ### Concrete inputs and evaluation lemmas for the claims -/

set_option maxRecDepth 100000

/-- Generic congruence: any observation that ignores `id` is invariant across
reminders related by `SameModId`. -/
theorem forall₂_map_congr_eraseId {β : Type} (f : Reminder → β)
    (hf : ∀ r1 r2 : Reminder, SameModId r1 r2 → f r1 = f r2)
    {l1 l2 : List Reminder} (h : List.Forall₂ SameModId l1 l2) :
    l1.map f = l2.map f := by
  induction h with
  | nil => rfl
  | cons hr _ ih => simp only [List.map_cons, ih, hf _ _ hr]

/-- Erase the two carried-over flags (they are constantly `false` in fresh
extraction output). -/
def eraseFlags (r : Reminder) : Reminder :=
  { r with isCompleted := false, isDismissed := false }

/-- Erase only `isCompleted` (used to state frame conditions). -/
def eraseCompleted (r : Reminder) : Reminder := { r with isCompleted := false }

/-- Erase only `isDismissed` (used to state frame conditions). -/
def eraseDismissed (r : Reminder) : Reminder := { r with isDismissed := false }

/-- The candidate-relevant fields of a reminder: text, priority, category and
suggested time. -/
def candView (r : Reminder) : String × Priority × String × Option String :=
  (r.text, r.priority, r.category, r.suggestedTime)

def noteExercise : Note :=
  { id := "n1", content := "I need to exercise tomorrow", transcript := none,
    timestamp := "ts" }

def noteUrgent : Note :=
  { id := "n6", content := "urgent: call the doctor asap", transcript := none,
    timestamp := "ts" }

def noteJog : Note :=
  { id := "nj", content := "I must jog now", transcript := none, timestamp := "ts" }

def noteColl1 : Note :=
  { id := "n", content := "I need to xxxxyyyy", transcript := none, timestamp := "ts" }

def noteColl2 : Note :=
  { id := "nxxxx", content := "I need to yyyy", transcript := none, timestamp := "ts" }

def remEx1 : Reminder :=
  { id := "n1-t", noteId := "n1", text := "exercise tomorrow",
    extractedFrom := "I need to exercise tomorrow", priority := .medium,
    category := "fitness", suggestedTime := some "tomorrow",
    isCompleted := false, isDismissed := false, createdAt := "ts" }

def remEx2 : Reminder :=
  { id := "n1-t", noteId := "n1", text := "exercise",
    extractedFrom := "I need to exercise tomorrow", priority := .medium,
    category := "fitness", suggestedTime := some "tomorrow",
    isCompleted := false, isDismissed := false, createdAt := "ts" }

/-- Concrete evaluation: the note `"I need to exercise tomorrow"` yields TWO
candidates.  Pattern 1 captures `"exercise tomorrow"` (via `need to`), and
pattern 3 additionally matches `"exercise"`; their similarity is 8/17, below
the 0.7 threshold, so both survive deduplication. -/
theorem extractExercise_eval :
    extractRemindersFromNotes (fun _ => "t") [noteExercise] = [remEx1, remEx2] := by
  have hraw : rawCandidates (fun _ => "t") [noteExercise] = [remEx1, remEx2] := by rfl
  have hlev : levenshteinDistance "exercise tomorrow" "exercise" = 9 := by rfl
  have hns : ¬ (similarity "exercise tomorrow" "exercise" > 0.7) := by
    simp only [similarity]
    norm_num [String.length]
    rw [hlev]
    norm_num
  have hded : dedup [remEx1, remEx2] = [remEx1, remEx2] := by
    simp [dedup, List.enum, List.enumFrom, remEx1, remEx2, hns]
  rw [extractRemindersFromNotes, hraw, hded]
  rfl

/-- Concrete evaluation: no extraction pattern matches
`"urgent: call the doctor asap"` (in particular `call` is only recognised after
a time phrase by pattern 2), so the note yields no candidates at all. -/
theorem extractUrgent_eval :
    extractRemindersFromNotes (fun _ => "t") [noteUrgent] = [] := by rfl

def rcA : Reminder :=
  { id := "n-0", noteId := "n", text := "xxxxyyyy",
    extractedFrom := "I need to xxxxyyyy", priority := .medium,
    category := "general", suggestedTime := none,
    isCompleted := false, isDismissed := false, createdAt := "ts" }

def rcB : Reminder :=
  { id := "nxxxx-1", noteId := "nxxxx", text := "yyyy",
    extractedFrom := "I need to yyyy", priority := .medium,
    category := "general", suggestedTime := none,
    isCompleted := false, isDismissed := false, createdAt := "ts" }

def rcA2 : Reminder := { rcA with id := "n-z0" }

def rcB2 : Reminder := { rcB with id := "nxxxx-z1" }

/-- The two colliding-key notes produce two candidates whose texts have
similarity 1/2, so both survive deduplication.  Their concatenated merge keys
coincide: `"n" ++ "xxxxyyyy" = "nxxxx" ++ "yyyy"`. -/
theorem extractColl_eval1 :
    extractRemindersFromNotes (fun k => toString k) [noteColl1, noteColl2] =
      [rcA, rcB] := by
  have hraw : rawCandidates (fun k => toString k) [noteColl1, noteColl2] = [rcA, rcB] := by
    rfl
  have hlev : levenshteinDistance "xxxxyyyy" "yyyy" = 4 := by rfl
  have hns : ¬ (similarity "xxxxyyyy" "yyyy" > 0.7) := by
    simp only [similarity]
    norm_num [String.length]
    rw [hlev]
    norm_num
  have hded : dedup [rcA, rcB] = [rcA, rcB] := by
    simp [dedup, List.enum, List.enumFrom, rcA, rcB, hns]
  rw [extractRemindersFromNotes, hraw, hded]
  rfl

theorem extractColl_eval2 :
    extractRemindersFromNotes (fun k => "z" ++ toString k) [noteColl1, noteColl2] =
      [rcA2, rcB2] := by
  have hraw : rawCandidates (fun k => "z" ++ toString k) [noteColl1, noteColl2] =
      [rcA2, rcB2] := by rfl
  have hlev : levenshteinDistance "xxxxyyyy" "yyyy" = 4 := by rfl
  have hns : ¬ (similarity "xxxxyyyy" "yyyy" > 0.7) := by
    simp only [similarity]
    norm_num [String.length]
    rw [hlev]
    norm_num
  have hded : dedup [rcA2, rcB2] = [rcA2, rcB2] := by
    simp [dedup, List.enum, List.enumFrom, rcA2, rcB2, rcA, rcB, hns]
  rw [extractRemindersFromNotes, hraw, hded]
  rfl

/-! ### The claims -/

/-- Claim C1 (counterexample): extraction is NOT deterministic across runs even
ignoring the completion/dismissal flags, because each reminder id embeds
`Date.now()` and `Math.random()` (modelled by `clk`): two runs on the same
single-note input produce different reminder lists. -/
theorem c1_counterexample :
    ((extractRemindersFromNotes (fun _ => "a") [noteJog]).map eraseFlags) ≠
    ((extractRemindersFromNotes (fun _ => "b") [noteJog]).map eraseFlags) := by
  decide

/-- Claim C1 (amended): ignoring the generated `id` field (which embeds the
current time and a random number) in addition to the carried-over
completion/dismissal flags, `extractRemindersFromNotes` is a deterministic pure
function of the note sequence: two runs yield identical candidate sets. -/
theorem c1_deterministic_mod_id (notes : List Note) (clk1 clk2 : ℕ → String) :
    ((extractRemindersFromNotes clk1 notes).map (fun r => eraseFlags (eraseId r))) =
    ((extractRemindersFromNotes clk2 notes).map (fun r => eraseFlags (eraseId r))) := by
  refine forall₂_map_congr_eraseId _ ?_ (extract_forall₂ clk1 clk2 notes)
  intro r1 r2 h
  rw [show eraseId r1 = eraseId r2 from h]

/-- Claim C5 (counterexample): the single note `"I need to exercise tomorrow"`
yields TWO candidates, not exactly one: pattern 1 produces
`"exercise tomorrow"` and pattern 3 produces `"exercise"`, and their
similarity 8/17 is below the 0.7 threshold. -/
theorem c5_counterexample :
    (extractRemindersFromNotes (fun _ => "t") [noteExercise]).length = 2 := by
  rw [extractExercise_eval]
  rfl

/-- Claim C5 (amended): for every run, the note `"I need to exercise tomorrow"`
yields exactly two candidates, in order `"exercise tomorrow"` then
`"exercise"`, both with category `"fitness"`, priority medium and suggested
time `"tomorrow"`. -/
theorem c5_exercise_note (clk : ℕ → String) :
    (extractRemindersFromNotes clk [noteExercise]).map candView =
      [("exercise tomorrow", Priority.medium, "fitness", some "tomorrow"),
       ("exercise", Priority.medium, "fitness", some "tomorrow")] := by
  have hmap : (extractRemindersFromNotes clk [noteExercise]).map candView =
      (extractRemindersFromNotes (fun _ => "t") [noteExercise]).map candView := by
    refine forall₂_map_congr_eraseId _ ?_ (extract_forall₂ clk (fun _ => "t") [noteExercise])
    intro r1 r2 h
    have h2 : candView (eraseId r1) = candView (eraseId r2) := by
      rw [show eraseId r1 = eraseId r2 from h]
    simpa [candView, eraseId] using h2
  rw [hmap, extractExercise_eval]
  rfl

/-- Claim C6 (counterexample): extraction on the note
`"urgent: call the doctor asap"` yields NO candidate at all (so in particular
none with priority high): no extraction pattern matches the text. -/
theorem c6_counterexample :
    ¬ ∃ r ∈ extractRemindersFromNotes (fun _ => "t") [noteUrgent],
      r.priority = Priority.high := by
  simp [extractUrgent_eval]

/-- Claim C6 (amended): for every run, extraction of
`"urgent: call the doctor asap"` yields no candidates — `call` is only
recognised by pattern 2 after a time phrase, and no other pattern word occurs.
The priority heuristic itself would classify this text as high (it contains
`urgent` and `asap`), so any candidate containing it would be high priority,
but no candidate is produced. -/
theorem c6_urgent_note :
    (∀ clk : ℕ → String, extractRemindersFromNotes clk [noteUrgent] = []) ∧
    determinePriority "urgent: call the doctor asap" = Priority.high := by
  constructor
  · intro clk
    have h := extract_forall₂ clk (fun _ => "t") [noteUrgent]
    rw [extractUrgent_eval] at h
    exact List.forall₂_nil_right_iff.1 h
  · rfl

/-- The deduplication procedure described by the spec for claim C2, written from
the claim wording: each candidate is compared only against the text of every
earlier KEPT candidate. -/
def dedupSpecKeptOnly (rs : List Reminder) : List Reminder :=
  go [] rs
where
  go (kept : List Reminder) : List Reminder → List Reminder
    | [] => []
    | r :: rest =>
        if kept.any (fun ex => decide (similarity ex.text r.text > 0.7)) then
          go kept rest
        else
          r :: go (kept ++ [r]) rest

def remA : Reminder :=
  { id := "a", noteId := "n", text := "aaaa", extractedFrom := "aaaa",
    priority := .medium, category := "general", suggestedTime := none,
    isCompleted := false, isDismissed := false, createdAt := "ts" }

def remB : Reminder := { remA with id := "b", text := "aaab", extractedFrom := "aaab" }

def remC : Reminder := { remA with id := "c", text := "aabb", extractedFrom := "aabb" }

/-- Claim C2 (counterexample): on the candidate texts
`["aaaa", "aaab", "aabb"]` the code keeps only `"aaaa"`, although `"aabb"` is
similar (above 0.7) only to the DROPPED candidate `"aaab"` and not to the kept
`"aaaa"` (similarity 1/2); the procedure described by the claim would keep
`["aaaa", "aabb"]`. -/
theorem c2_counterexample :
    dedup [remA, remB, remC] = [remA] ∧
    dedupSpecKeptOnly [remA, remB, remC] = [remA, remC] ∧
    similarity remA.text remC.text ≤ 0.7 ∧
    similarity remA.text remB.text > 0.7 ∧
    similarity remB.text remC.text > 0.7 := by
  have hl1 : levenshteinDistance "aaab" "aaaa" = 1 := by rfl
  have hl2 : levenshteinDistance "aabb" "aaab" = 1 := by rfl
  have hl3 : levenshteinDistance "aabb" "aaaa" = 2 := by rfl
  have hs1 : similarity "aaaa" "aaab" > 0.7 := by
    simp only [similarity]
    norm_num [String.length]
    rw [hl1]
    norm_num
  have hs2 : similarity "aaab" "aabb" > 0.7 := by
    simp only [similarity]
    norm_num [String.length]
    rw [hl2]
    norm_num
  have hs3 : similarity "aaaa" "aabb" ≤ 0.7 := by
    simp only [similarity]
    norm_num [String.length]
    rw [hl3]
    norm_num
  have hs3n : ¬ (similarity "aaaa" "aabb" > 0.7) := not_lt_of_le hs3
  refine ⟨?_, ?_, by simpa [remA, remC] using hs3, by simpa [remA, remB] using hs1,
    by simpa [remB, remC] using hs2⟩
  · simp [dedup, List.enum, List.enumFrom, remA, remB, remC, hs1, hs2, hs3n]
  · simp [dedupSpecKeptOnly, dedupSpecKeptOnly.go, remA, remB, remC, hs1, hs2, hs3n]

/-- Claim C4: extraction output is sorted descending by priority weight
(high = 3, medium = 2, low = 1), and candidates of equal priority keep their
pre-sort relative order (the JS sort is stable and the comparator depends only
on the priority weight): filtering the output by any fixed priority gives the
same sequence as filtering the deduplicated candidate list. -/
theorem c4_sorted_and_stable (clk : ℕ → String) (notes : List Note) :
    (extractRemindersFromNotes clk notes).Pairwise
      (fun a b => priorityWeight b.priority ≤ priorityWeight a.priority) ∧
    ∀ p : Priority,
      (extractRemindersFromNotes clk notes).filter (fun r => decide (r.priority = p)) =
      (dedup (rawCandidates clk notes)).filter (fun r => decide (r.priority = p)) := by
  constructor
  · unfold extractRemindersFromNotes sortByPriorityDesc
    exact sortGo_sorted _ [] List.Pairwise.nil
  · intro p
    unfold extractRemindersFromNotes sortByPriorityDesc
    rw [filter_sortGo p _ [] List.Pairwise.nil]
    rfl

/-- Claim C7 (counterexample): `similarity("", "")` is not 1.  In JS it is
`0/0 = NaN`; in the rational model it is 0.  Either way it differs from 1, so
`similarity(a, a) = 1` fails for the empty string. -/
theorem c7_counterexample : similarity "" "" ≠ 1 := by
  have h0 : levenshteinDistance "" "" = 0 := rfl
  simp [similarity, h0]

/-- Claim C7 (amended): the similarity function is symmetric for all strings,
and `similarity(a, a) = 1` holds for every NONEMPTY string `a`; for the empty
string the expression is 0/0 (NaN in JS). -/
theorem c7_similarity_props :
    (∀ a b : String, similarity a b = similarity b a) ∧
    (∀ a : String, a ≠ "" → similarity a a = 1) := by
  constructor
  · intro a b
    unfold similarity
    rcases lt_trichotomy a.length b.length with h | h | h
    · have h1 : ¬ (a.length > b.length) := by omega
      have h2 : b.length > a.length := h
      rw [if_neg h1, if_neg h1, if_pos h2, if_pos h2]
    · have h1 : ¬ (a.length > b.length) := by omega
      have h2 : ¬ (b.length > a.length) := by omega
      rw [if_neg h1, if_neg h1, if_neg h2, if_neg h2]
      dsimp only
      rw [levenshteinDistance_comm b a, h]
    · have h1 : a.length > b.length := h
      have h2 : ¬ (b.length > a.length) := by omega
      rw [if_pos h1, if_pos h1, if_neg h2, if_neg h2]
  · intro a ha
    unfold similarity
    dsimp only
    rw [ite_self, levenshteinDistance_self]
    have hlen : a.length ≠ 0 := by
      intro h0
      apply ha
      cases a with
      | mk data =>
          have : data.length = 0 := h0
          have hdata : data = [] := List.length_eq_zero.1 this
          rw [hdata]
    have hq : (a.length : ℚ) ≠ 0 := by
      exact_mod_cast hlen
    field_simp

/-- Claim C7 (witness): symmetry and self-similarity instantiated at concrete
strings. -/
theorem c7_witness : similarity "ab" "ab" = 1 :=
  c7_similarity_props.2 "ab" (by decide)

/-- Claim C8: `levenshteinDistance` computes the standard Levenshtein edit
distance: it is the least `n` such that `a` is transformed into `b` by `n`
single-character substitutions, insertions and deletions (each of cost 1). -/
theorem c8_levenshtein_minimal_edits (a b : String) :
    IsLeast {n | EditsIn n a.data b.data} (levenshteinDistance a b) :=
  levenshteinDistance_isLeast a b

/-- Claim C9: `completeReminder` (respectively `dismissReminder`) changes only
the `isCompleted` (respectively `isDismissed`) flag of the reminder(s) with the
given id: the list length is preserved, every reminder at a position whose id
differs is untouched, and at a matching position every field except the one
flag is unchanged (`completeReminder` toggles, `dismissReminder` sets).  Both
operations take only the reminder list — the note set is not an input and
extraction is not re-run. -/
theorem c9_flag_frame (rs : List Reminder) (rid : String) :
    (completeReminder rid rs).length = rs.length ∧
    (dismissReminder rid rs).length = rs.length ∧
    (∀ i (hi : i < rs.length) (hi2 : i < (completeReminder rid rs).length),
      eraseCompleted ((completeReminder rid rs).get ⟨i, hi2⟩) =
        eraseCompleted (rs.get ⟨i, hi⟩) ∧
      ((rs.get ⟨i, hi⟩).id ≠ rid →
        (completeReminder rid rs).get ⟨i, hi2⟩ = rs.get ⟨i, hi⟩) ∧
      ((rs.get ⟨i, hi⟩).id = rid →
        ((completeReminder rid rs).get ⟨i, hi2⟩).isCompleted =
          !(rs.get ⟨i, hi⟩).isCompleted)) ∧
    (∀ i (hi : i < rs.length) (hi2 : i < (dismissReminder rid rs).length),
      eraseDismissed ((dismissReminder rid rs).get ⟨i, hi2⟩) =
        eraseDismissed (rs.get ⟨i, hi⟩) ∧
      ((rs.get ⟨i, hi⟩).id ≠ rid →
        (dismissReminder rid rs).get ⟨i, hi2⟩ = rs.get ⟨i, hi⟩) ∧
      ((rs.get ⟨i, hi⟩).id = rid →
        ((dismissReminder rid rs).get ⟨i, hi2⟩).isDismissed = true)) := by
  refine ⟨by simp [completeReminder], by simp [dismissReminder], ?_, ?_⟩
  · intro i hi hi2
    have hg : (completeReminder rid rs).get ⟨i, hi2⟩ =
        (if (rs.get ⟨i, hi⟩).id = rid then
          { rs.get ⟨i, hi⟩ with isCompleted := !(rs.get ⟨i, hi⟩).isCompleted }
         else rs.get ⟨i, hi⟩) := by
      simp [completeReminder, List.get_eq_getElem, List.getElem_map]
    rw [hg]
    by_cases h : (rs.get ⟨i, hi⟩).id = rid
    · rw [if_pos h]
      refine ⟨?_, fun hne => absurd h hne, fun _ => rfl⟩
      simp [eraseCompleted]
    · rw [if_neg h]
      exact ⟨rfl, fun _ => rfl, fun heq => absurd heq h⟩
  · intro i hi hi2
    have hg : (dismissReminder rid rs).get ⟨i, hi2⟩ =
        (if (rs.get ⟨i, hi⟩).id = rid then
          { rs.get ⟨i, hi⟩ with isDismissed := true }
         else rs.get ⟨i, hi⟩) := by
      simp [dismissReminder, List.get_eq_getElem, List.getElem_map]
    rw [hg]
    by_cases h : (rs.get ⟨i, hi⟩).id = rid
    · rw [if_pos h]
      refine ⟨?_, fun hne => absurd h hne, fun _ => rfl⟩
      simp [eraseDismissed]
    · rw [if_neg h]
      exact ⟨rfl, fun _ => rfl, fun heq => absurd heq h⟩

def remW1 : Reminder :=
  { id := "w1", noteId := "n1", text := "jog now", extractedFrom := "x",
    priority := .medium, category := "fitness", suggestedTime := none,
    isCompleted := false, isDismissed := false, createdAt := "ts" }

def remW2 : Reminder := { remW1 with id := "w2", text := "drink water" }

/-- Claim C9 (witness): the frame theorem instantiated on a concrete
two-element list, at the toggled position and at an untouched position. -/
theorem c9_flag_frame_witness :
    ((completeReminder "w1" [remW1, remW2]).get ⟨0, by decide⟩).isCompleted =
      !(([remW1, remW2].get ⟨0, by decide⟩).isCompleted) ∧
    (completeReminder "w1" [remW1, remW2]).get ⟨1, by decide⟩ =
      [remW1, remW2].get ⟨1, by decide⟩ := by
  have h0 := ((c9_flag_frame [remW1, remW2] "w1").2.2.1 0 (by decide) (by decide)).2.2
  have h1 := ((c9_flag_frame [remW1, remW2] "w1").2.2.1 1 (by decide) (by decide)).2.1
  exact ⟨h0 (by decide), h1 (by decide)⟩

/-- Claim C10: `extractTimeHint` returns the matched pattern source with regex
metacharacters stripped and the FIRST occurrence of the letter `i` removed: a
note body whose first matching time pattern is `tonight` gets suggested time
`"tonght"`, and one whose first matching pattern is `this morning` gets
`"ths morning"` — never the literal matched phrase. -/
theorem c10_time_hint_mangled (text : String) :
    (strIncludes (toLowerStr text) "tomorrow" = false →
     strIncludes (toLowerStr text) "today" = false →
     strIncludes (toLowerStr text) "tonight" = true →
     extractTimeHint text = some "tonght" ∧ extractTimeHint text ≠ some "tonight") ∧
    (strIncludes (toLowerStr text) "tomorrow" = false →
     strIncludes (toLowerStr text) "today" = false →
     strIncludes (toLowerStr text) "tonight" = false →
     strIncludes (toLowerStr text) "this morning" = true →
     extractTimeHint text = some "ths morning" ∧
       extractTimeHint text ≠ some "this morning") := by
  constructor
  · intro h1 h2 h3
    have hfind : extractTimeHint text = some "tonght" := by
      unfold extractTimeHint timeHintSources
      simp [List.find?, h1, h2, h3]
      rfl
    refine ⟨hfind, ?_⟩
    rw [hfind]
    intro hcontra
    have : ("tonght" : String) = "tonight" := by
      simpa using hcontra
    simp at this
  · intro h1 h2 h3 h4
    have hfind : extractTimeHint text = some "ths morning" := by
      unfold extractTimeHint timeHintSources
      simp [List.find?, h1, h2, h3, h4]
      rfl
    refine ⟨hfind, ?_⟩
    rw [hfind]
    intro hcontra
    have : ("ths morning" : String) = "this morning" := by
      simpa using hcontra
    simp at this

/-- Claim C10 (witness): concrete note bodies exercising both mangled outputs. -/
theorem c10_time_hint_witness :
    extractTimeHint "see you tonight" = some "tonght" ∧
    extractTimeHint "walk this morning" = some "ths morning" :=
  ⟨((c10_time_hint_mangled "see you tonight").1 (by decide) (by decide) (by decide)).1,
   ((c10_time_hint_mangled "walk this morning").2 (by decide) (by decide) (by decide)
     (by decide)).1⟩

def remJogDone : Reminder :=
  { id := "nj-t", noteId := "nj", text := "jog now",
    extractedFrom := "I must jog now", priority := .medium,
    category := "fitness", suggestedTime := none,
    isCompleted := true, isDismissed := false, createdAt := "ts" }

/-- Claim C3 (witness): with a single note and no key collision, completing the
extracted reminder and re-running extraction preserves `isCompleted = true`
through the merge. -/
theorem c3_completion_preserved_witness :
    ∃ r2 ∈ mergeReminders
      (completeReminder "nj-t"
        (mergeReminders [] (extractRemindersFromNotes (fun _ => "t") [noteJog])))
      (extractRemindersFromNotes (fun _ => "t") [noteJog]),
      r2.noteId = "nj" ∧ r2.text = "jog now" ∧ r2.isCompleted = true := by
  have h := c3_completion_preserved_amended [noteJog] (fun _ => "t") (fun _ => "t") []
    "nj-t" remJogDone (by decide) (by decide) (by decide)
  simpa [remJogDone] using h

/-- Claim C3 (counterexample): the merge key is the string CONCATENATION
`noteId + text`, not the `(noteId, text)` pair.  The notes with ids `"n"` and
`"nxxxx"` produce reminders with texts `"xxxxyyyy"` and `"yyyy"`; both have
the same concatenated key `"nxxxxyyyy"`, and the JS `Map` keeps the LAST
entry.  After completing the first reminder, re-running extraction on the
unchanged note set loses its `isCompleted = true` state: the merged output
contains no completed reminder with that `(noteId, text)` pair. -/
theorem c3_counterexample :
    (∃ r ∈ completeReminder "n-0"
        (mergeReminders []
          (extractRemindersFromNotes (fun k => toString k) [noteColl1, noteColl2])),
      r.noteId = "n" ∧ r.text = "xxxxyyyy" ∧ r.isCompleted = true) ∧
    ¬ (∃ r2 ∈ mergeReminders
        (completeReminder "n-0"
          (mergeReminders []
            (extractRemindersFromNotes (fun k => toString k) [noteColl1, noteColl2])))
        (extractRemindersFromNotes (fun k => "z" ++ toString k) [noteColl1, noteColl2]),
      r2.noteId = "n" ∧ r2.text = "xxxxyyyy" ∧ r2.isCompleted = true) := by
  rw [extractColl_eval1, extractColl_eval2]
  decide
